import Mathlib

set_option maxRecDepth 100000

/-!
Verification of the engagic PDF acquisition/extraction/validation pipeline.

Shallow embedding conventions:
* Rust `&str` / `String` values are embedded as `List Char` (sequences of
  Unicode scalar values); byte-oriented operations (`str::len`, URL handling,
  the `urlencoding` codec) work on `List Nat` (UTF-8 bytes, each < 256).
* The `f32` letter-ratio comparison `letters as f32 / total as f32 < 0.3f32`
  is modelled exactly: both conversions are rounded to 24 significant bits
  (ties to even, overflow to `+∞` at `2^128 - 2^103`), and the correctly
  rounded quotient is below `0.3f32` precisely when the exact quotient of
  the rounded operands is below the midpoint `20132659 / 2^26` between
  `0.3f32` and its f32 predecessor. The single-character-ratio comparison
  `> 0.4f32` is modelled by the exact `singles * 5 > sample * 2`, which
  coincides with the f32 comparison for every reachable input because the
  sample never exceeds 100 words (a disagreement would need a quotient
  within 3e-8 of 0.4, impossible at denominators up to 100 except exactly
  2/5, where both comparisons are false).
* The blocking HTTP client and the poppler parsing library are external
  dependencies; they are modelled as oracles passed explicitly (a function
  from URL and attempt number to a response, and a function from bytes to an
  optional parsed document).
* Unicode NFC normalization is modelled by a canonical-composition pass
  restricted to a finite composition table (the combining grave accent
  U+0300 with the ten basic vowels, plus I). It is faithful on ASCII
  strings, where full NFC is the identity (ASCII characters have no
  canonical decompositions, all have combining class 0, and no canonical
  composition pair consists of two ASCII characters), and on the
  ASCII-plus-U+0300 sequences used in the counterexamples; general theorems
  about `normalize_text` therefore carry an all-ASCII hypothesis.
-/

namespace Engagic

/-! ### Generic sequence search, modelling Rust `str::find` / `str::contains`
(substring search over UTF-8 bytes; `find` returns the byte index of the
first occurrence). -/

def findSeqAux {α : Type} [DecidableEq α] (pat : List α) : List α → Nat → Option Nat
  | l, i =>
    if pat.isPrefixOf l then some i
    else
      match l with
      | [] => none
      | _ :: xs => findSeqAux pat xs (i + 1)

def findSeq {α : Type} [DecidableEq α] (pat l : List α) : Option Nat :=
  findSeqAux pat l 0

def containsSeq {α : Type} [DecidableEq α] (pat l : List α) : Bool :=
  (findSeq pat l).isSome

/-! ### UTF-8 bytes -/

/-- UTF-8 bytes of a string; `Char.toNat` equals the byte only for ASCII
strings, which is the only way this abbreviation is used below. -/
def ascii (s : String) : List Nat := s.data.map Char.toNat

/-- Continuation byte test, `0x80..0xBF`. -/
def contByte (b : Nat) : Bool := 128 ≤ b && b < 192

/-- Second-byte constraint of a 3-byte sequence with lead byte `b1`
(excludes overlong encodings and surrogates, as Rust's UTF-8 validation
does). -/
def cont3 (b1 b2 : Nat) : Bool :=
  if b1 = 224 then 160 ≤ b2 && b2 < 192
  else if b1 = 237 then 128 ≤ b2 && b2 < 160
  else contByte b2

/-- Second-byte constraint of a 4-byte sequence with lead byte `b1`. -/
def cont4 (b1 b2 : Nat) : Bool :=
  if b1 = 240 then 144 ≤ b2 && b2 < 192
  else if b1 = 244 then 128 ≤ b2 && b2 < 144
  else contByte b2

/-- Whether a byte sequence is valid UTF-8 (the check performed by Rust's
`String::from_utf8`, which `urlencoding::decode` applies to the
percent-decoded bytes). -/
def utf8Valid : List Nat → Bool
  | [] => true
  | b1 :: t1 =>
    if b1 < 128 then utf8Valid t1
    else if b1 < 194 then false
    else if b1 < 224 then
      match t1 with
      | b2 :: t2 => contByte b2 && utf8Valid t2
      | [] => false
    else if b1 < 240 then
      match t1 with
      | b2 :: b3 :: t3 => cont3 b1 b2 && contByte b3 && utf8Valid t3
      | _ => false
    else if b1 < 245 then
      match t1 with
      | b2 :: b3 :: b4 :: t4 => cont4 b1 b2 && contByte b3 && contByte b4 && utf8Valid t4
      | _ => false
    else false

/-! ### Percent codec, modelling the `urlencoding` crate.
`decode` turns `%XX` (two hex digits) into the byte `XX`, leaves a `%` not
followed by two hex digits as a literal `%`, and fails (yielding, through
`unwrap_or_default`, the empty string) when the decoded bytes are not valid
UTF-8. `encode` percent-encodes every byte outside `[A-Za-z0-9._~-]` with
uppercase hex. -/

def hexVal (b : Nat) : Option Nat :=
  if 48 ≤ b && b ≤ 57 then some (b - 48)
  else if 65 ≤ b && b ≤ 70 then some (b - 55)
  else if 97 ≤ b && b ≤ 102 then some (b - 87)
  else none

def hexDigit (n : Nat) : Nat := if n < 10 then 48 + n else 55 + n

def isUnreserved (b : Nat) : Bool :=
  (48 ≤ b && b ≤ 57) || (65 ≤ b && b ≤ 90) || (97 ≤ b && b ≤ 122) ||
  b = 45 || b = 46 || b = 95 || b = 126

def percentDecodeBytes : List Nat → List Nat
  | [] => []
  | [x] => [x]
  | [x, y] => [x, y]
  | x :: y :: z :: rest =>
    if x = 37 then
      match hexVal y, hexVal z with
      | some hi, some lo => (16 * hi + lo) :: percentDecodeBytes rest
      | none, _ => 37 :: percentDecodeBytes (y :: z :: rest)
      | some _, none => 37 :: percentDecodeBytes (y :: z :: rest)
    else x :: percentDecodeBytes (y :: z :: rest)

def percentEncodeBytes (l : List Nat) : List Nat :=
  (l.map (fun b =>
    if isUnreserved b then [b]
    else [37, hexDigit (b / 16), hexDigit (b % 16)])).flatten

/-! ### Fetcher (src/backend-rs/src/pdf/downloader.rs) -/

def MAX_PDF_SIZE : Nat := 200 * 1024 * 1024
def MAX_RETRIES : Nat := 3

inductive DownloadError where
  | Network : DownloadError
  | TooLarge : Nat → DownloadError
  | InvalidUrl : List Nat → DownloadError
  | RetriesExhausted : DownloadError
deriving DecidableEq

/-- An HTTP response as exposed by the blocking client: success status,
optional declared `Content-Length`, and the body bytes. -/
structure HttpResponse where
  statusOk : Bool
  contentLength : Option Nat
  body : List Nat
deriving DecidableEq

def gviewPat : List Nat := ascii "docs.google.com/gview"
def urlEqPat : List Nat := ascii "url="

/-- `PdfDownloader::extract_google_docs_url`: if the URL contains
`docs.google.com/gview` and a `url=` marker, extract the value after the
first `url=` up to the first `&`, percent-decode it (empty string on a
UTF-8 decoding failure, via `unwrap_or_default`); otherwise return the URL
unchanged. -/
def extract_google_docs_url (url : List Nat) : List Nat :=
  if containsSeq gviewPat url then
    match findSeq urlEqPat url with
    | some start =>
      let query_part := url.drop (start + 4)
      match findSeq [38] query_part with
      | some e =>
        let d := percentDecodeBytes (query_part.take e)
        if utf8Valid d then d else []
      | none =>
        let d := percentDecodeBytes query_part
        if utf8Valid d then d else []
    | none => url
  else url

/-- `PdfDownloader::download_once`: a failed send or non-success status is a
network error; a declared content length over the cap, or an actual body
over the cap, is `TooLarge`. -/
def download_once (resp : Except Unit HttpResponse) : Except DownloadError (List Nat) :=
  match resp with
  | .error _ => .error .Network
  | .ok r =>
    if !r.statusOk then .error .Network
    else
      match r.contentLength with
      | some cl =>
        if MAX_PDF_SIZE < cl then .error (.TooLarge cl)
        else if MAX_PDF_SIZE < r.body.length then .error (.TooLarge r.body.length)
        else .ok r.body
      | none =>
        if MAX_PDF_SIZE < r.body.length then .error (.TooLarge r.body.length)
        else .ok r.body

/-- The retry loop of `PdfDownloader::download`: `n` remaining attempts,
`attempt` the 1-based attempt counter, `last` the last recorded error.
Every failed attempt (of whatever kind) is recorded and, while attempts
remain, followed by another attempt; the inter-attempt backoff sleep is a
side effect not modelled. -/
def downloadAttempts (once : Nat → Except DownloadError (List Nat)) :
    Nat → Nat → Option DownloadError → Except DownloadError (List Nat)
  | 0, _, last =>
    match last with
    | some e => .error e
    | none => .error .RetriesExhausted
  | n + 1, attempt, _ =>
    match once attempt with
    | .ok b => .ok b
    | .error e => downloadAttempts once n (attempt + 1) (some e)

/-- `PdfDownloader::download`, with the HTTP client modelled as an oracle
`net` from (URL bytes, attempt number) to a response (`.error` = transport
failure of `send()`). -/
def download (net : List Nat → Nat → Except Unit HttpResponse) (url : List Nat) :
    Except DownloadError (List Nat) :=
  if url = [] || 2000 < url.length then .error (.InvalidUrl url)
  else
    let actual := extract_google_docs_url url
    downloadAttempts (fun a => download_once (net actual a)) MAX_RETRIES 1 none

/-! ### Validator (src/backend-rs/src/pdf/validator.rs) -/

def MIN_TEXT_LENGTH : Nat := 100
def MIN_WORDS : Nat := 20
def MIN_RECOGNIZABLE_WORDS : Nat := 5

/-- Models Rust `char::is_alphabetic` (the Unicode `Alphabetic` property),
classified exactly on the Basic Latin and Latin-1 Supplement blocks; code
points above U+00FF are left unclassified (`false`), which no theorem below
depends on (all general theorems hold for an arbitrary classification, and
all concrete inputs stay within Latin-1). -/
def isAlphabetic (c : Char) : Bool :=
  (65 ≤ c.toNat && c.toNat ≤ 90) || (97 ≤ c.toNat && c.toNat ≤ 122) ||
  c.toNat = 0xAA || c.toNat = 0xB5 || c.toNat = 0xBA ||
  (0xC0 ≤ c.toNat && c.toNat ≤ 0xFF && c.toNat ≠ 0xD7 && c.toNat ≠ 0xF7)

/-- Rust `char::is_whitespace`: the Unicode `White_Space` property. -/
def rustIsWhitespace (c : Char) : Bool :=
  (9 ≤ c.toNat && c.toNat ≤ 13) || c.toNat = 32 || c.toNat = 0x85 ||
  c.toNat = 0xA0 || c.toNat = 0x1680 ||
  (0x2000 ≤ c.toNat && c.toNat ≤ 0x200A) ||
  c.toNat = 0x2028 || c.toNat = 0x2029 || c.toNat = 0x202F ||
  c.toNat = 0x205F || c.toNat = 0x3000

/-- Rust `str::len`: the length in UTF-8 bytes (not in characters). -/
def byteLen (t : List Char) : Nat := (t.map Char.utf8Size).sum

/-- Number of binary digits of `n` (`⌊log2 n⌋ + 1` for positive `n`,
`0` for `0`), computed with a constant fuel of 128 halving steps so that it
reduces in the kernel; 128 steps suffice for every `n < 2^128`, and the
only caller guards `n < 2^128 - 2^103`. -/
def nbitsAux : Nat → Nat → Nat
  | 0, _ => 0
  | fuel + 1, n => if n = 0 then 0 else nbitsAux fuel (n / 2) + 1

def nbits (n : Nat) : Nat := nbitsAux 128 n

/-- Round a natural number to the nearest f32 value (round to 24
significant bits, ties to even), returning the exact integer value of the
rounded float. For `n < 2^24` the value is exact; otherwise `n` lies in
`[2^(23+e), 2^(24+e))` with `e = nbits n - 24`, and the significand
`n / 2^e` is rounded on the remainder against the half-step `2^(e-1)`. -/
def roundSig (n : Nat) : Nat :=
  if n < 2 ^ 24 then n
  else
    let e := nbits n - 24
    let q := n / 2 ^ e
    let r := n % 2 ^ e
    let half := 2 ^ (e - 1)
    let q2 :=
      if half < r then q + 1
      else if r < half then q
      else if q % 2 = 0 then q else q + 1
    q2 * 2 ^ e

/-- Reals at or above `2^128 - 2^103` round to `+∞` in f32 (the tie at
exactly `2^128 - 2^103`, midway between the largest finite f32
`2^128 - 2^104` and `2^128`, goes to the even significand, i.e. up). -/
def F32_OVERFLOW : Nat := 2 ^ 128 - 2 ^ 103

/-- `n as f32` for a natural number `n`: `none` is `+∞`, `some v` the exact
integer value of the rounded float. -/
def roundF32Nat (n : Nat) : Option Nat :=
  if F32_OVERFLOW ≤ n then none else some (roundSig n)

/-- Numerator of the midpoint `20132659 / 2^26` between `0.3f32`
(`10066330 / 2^25`, even significand) and its f32 predecessor
(`10066329 / 2^25`). -/
def MID_BELOW_POINT3 : Nat := 20132659

/-- The f32 comparison `(letters as f32) / (total as f32) < 0.3f32`,
computed exactly. For finite operands the IEEE correctly rounded quotient
is below `0.3f32` iff the exact quotient `a / b` is below the midpoint
`20132659 / 2^26` (a tie there rounds to `0.3f32`, whose significand is
even), i.e. iff `a * 2^26 < b * 20132659`; that cross-multiplication also
covers `b = 0` (`0/0 = NaN` and `a/0 = +∞` both compare false). A finite
numerator over an infinite denominator gives `+0 < 0.3f32` (true); an
infinite or NaN quotient compares false. -/
def f32RatioLtPoint3 (letters total : Nat) : Bool :=
  match roundF32Nat letters, roundF32Nat total with
  | some a, some b => a * 67108864 < b * MID_BELOW_POINT3
  | some _, none => true
  | none, _ => false

/-- Rust `str::split_whitespace`: split on runs of whitespace, yielding the
non-empty words in order. `acc` accumulates the current word reversed. -/
def splitWsAux : List Char → List Char → List (List Char)
  | [], acc => if acc = [] then [] else [acc.reverse]
  | c :: rest, acc =>
    if rustIsWhitespace c then
      if acc = [] then splitWsAux rest []
      else acc.reverse :: splitWsAux rest []
    else splitWsAux rest (c :: acc)

def splitWhitespace (t : List Char) : List (List Char) := splitWsAux t []

/-- Rust `str::trim_matches(|c| !c.is_alphabetic())`: strip non-alphabetic
characters from both ends. -/
def trimNonAlpha (w : List Char) : List Char :=
  ((w.dropWhile (fun c => !isAlphabetic c)).reverse.dropWhile
    (fun c => !isAlphabetic c)).reverse

/-- Models Rust `str::to_lowercase`, restricted to ASCII lowering (Lean's
`Char.toLower`). This agrees with Rust on ASCII words; for words containing
non-ASCII characters the lexicon-membership test below can differ (e.g.
`par` + U+212A, the Kelvin sign, lowercases to the lexicon word `park` in
Rust but not here). No theorem below depends on lexicon matching of
non-ASCII words: the recognizable-word check only fires on samples of at
least 50 words, and every concrete input exercising it is ASCII. -/
def rustToLower (w : List Char) : List Char := w.map Char.toLower

/-- The `CIVIC_WORDS` lazily initialized lexicon, verbatim. -/
def CIVIC_WORDS : List String :=
  ["the", "and", "or", "but", "in", "on", "at", "to", "for", "of", "with", "by",
   "council", "city", "meeting", "agenda", "item", "public", "comment", "session",
   "board", "commission", "appointment", "ordinance", "resolution", "budget",
   "planning", "zoning", "development", "traffic", "safety", "park", "library",
   "police", "fire", "emergency", "infrastructure", "project", "contract",
   "approval", "review", "hearing", "vote", "motion", "approve", "deny",
   "discussion", "report", "presentation", "staff", "department", "mayor",
   "member", "chair", "chairman", "chairwoman", "minutes", "action", "adopt"]

def civicContains (w : List Char) : Bool :=
  CIVIC_WORDS.any (fun s => s.data == w)

/-- `TextValidator::is_good_quality` with the default thresholds. The
letter-ratio check models `letters as f32 / total as f32 < 0.3f32` exactly
via `f32RatioLtPoint3`. The single-character-ratio check models
`singles as f32 / sample as f32 > 0.4f32` by the exact
`singles * 5 > sample * 2`: the sample never exceeds 100 words, all the
conversions are exact there, and at denominators up to 100 the only
quotient within the f32 rounding window of 0.4 is exactly 2/5, where both
comparisons are false. -/
def is_good_quality (t : List Char) : Bool :=
  if byteLen t < MIN_TEXT_LENGTH then false
  else
    let letters := (t.filter isAlphabetic).length
    let total_chars := byteLen t
    if total_chars = 0 then false
    else if f32RatioLtPoint3 letters total_chars then false
    else
      let words := splitWhitespace t
      if words.length < MIN_WORDS then false
      else
        let sample := words.take 100
        let recognizable :=
          (sample.filter (fun w => civicContains (rustToLower (trimNonAlpha w)))).length
        if 50 ≤ sample.length && recognizable < MIN_RECOGNIZABLE_WORDS then false
        else
          let singles := (sample.filter (fun w => byteLen w = 1)).length
          if 50 ≤ sample.length && singles * 5 > sample.length * 2 then false
          else true

/-! ### Text normalization (src/infra/src/pdf/extractor.rs, `normalize_text`) -/

/-- The combining grave accent U+0300, the combining mark in the modelled
canonical-composition table. -/
def graveChar : Char := '̀'

/-- Canonical composition table of the NFC model: the ten basic vowels with
the combining grave accent, plus capital I with grave (U+00CC), the pair
exercised by the `'|'` → `'I'` substitution. -/
def composePair (a b : Char) : Option Char :=
  if b = graveChar then
    if a = 'A' then some 'À' else if a = 'E' then some 'È'
    else if a = 'I' then some 'Ì' else if a = 'O' then some 'Ò'
    else if a = 'U' then some 'Ù' else if a = 'a' then some 'à'
    else if a = 'e' then some 'è' else if a = 'i' then some 'ì'
    else if a = 'o' then some 'ò' else if a = 'u' then some 'ù'
    else none
  else none

/-- The combining mark of the model's composition table. This is a
model-internal device (U+0300 only), not a general combining-mark
classifier: claim-facing theorems that need "no combining marks" restrict
to ASCII characters instead, where the model's `nfc` is faithful. -/
def isCombining (c : Char) : Bool := c = graveChar

/-- Canonical composition pass of Unicode NFC (`text.nfc()`), restricted to
the `composePair` table: adjacent (starter, combining mark) pairs in the
table are composed, left to right. Faithful to full NFC on ASCII strings
(where NFC is the identity) and on strings of ASCII characters plus U+0300
occurrences covered by the table; unfaithful for other combining marks
(e.g. U+0301), which is why the idempotence theorem below restricts its
input to ASCII. The fuel argument (instantiated with the list length, which
the recursion never exhausts) keeps the recursion structural. -/
def nfcAux : Nat → List Char → List Char
  | 0, l => l
  | _ + 1, [] => []
  | _ + 1, [a] => [a]
  | fuel + 1, a :: b :: rest =>
    match composePair a b with
    | some c => nfcAux fuel (c :: rest)
    | none => a :: nfcAux fuel (b :: rest)

def nfc (l : List Char) : List Char := nfcAux l.length l

/-- A maximal run of `n` copies of `c`, as rewritten by
`Regex::replace_all`: runs of length at least `thresh` become `keep`
copies, shorter runs stay. -/
def emitRun (c : Char) (thresh keep n : Nat) : List Char :=
  if thresh ≤ n then List.replicate keep c else List.replicate n c

/-- Scanner for `replace_all` of the regex `c{thresh,}` by `keep` copies of
`c`; `n` counts the pending run of `c`s. -/
def collapseAux (c : Char) (thresh keep : Nat) : Nat → List Char → List Char
  | n, [] => emitRun c thresh keep n
  | n, x :: xs =>
    if x = c then collapseAux c thresh keep (n + 1) xs
    else emitRun c thresh keep n ++ x :: collapseAux c thresh keep 0 xs

def collapseRun (c : Char) (thresh keep : Nat) (l : List Char) : List Char :=
  collapseAux c thresh keep 0 l

def substPipe (c : Char) : Char := if c = '|' then 'I' else c

def substComma (c : Char) : Char := if c = '‚' then ',' else c

/-- Remove a maximal whitespace suffix (the right half of `str::trim`). -/
def trimRight : List Char → List Char
  | [] => []
  | x :: xs =>
    match trimRight xs with
    | [] => if rustIsWhitespace x then [] else [x]
    | y :: ys => x :: y :: ys

/-- Rust `str::trim`: strip leading and trailing whitespace. -/
def trimList (l : List Char) : List Char :=
  trimRight (l.dropWhile rustIsWhitespace)

/-- `normalize_text`: NFC, collapse `\n{3,}` to two newlines, collapse
`⌴{2,}` to one space, `'|'` → `'I'`, `'‚'` → `','`, trim. -/
def normalize_text (t : List Char) : List Char :=
  trimList ((((collapseRun ' ' 2 1 (collapseRun '\n' 3 2 (nfc t))).map
    substPipe).map substComma))

/-! ### Extractor (src/infra/src/pdf/extractor.rs) -/

def MAX_PAGES : Nat := 1000

/-- A parsed page, exposing `Page::text()`. -/
structure PdfPage where
  pageText : Option (List Char)

/-- A parsed document, exposing `Document::n_pages()` and
`Document::page(i)`. -/
structure PdfDoc where
  nPages : Nat
  page : Nat → Option PdfPage

structure PdfExtractionResult where
  text : List Char
  page_count : Nat
  pages_processed : Nat
deriving DecidableEq

/-- `format!("--- PAGE {} ---\n{}", page_num + 1, text)`. -/
def pageMarker (i : Nat) (txt : List Char) : List Char :=
  ("--- PAGE ".data ++ (Nat.repr (i + 1)).data ++ " ---\n".data) ++ txt

/-- The page walk of `extract_from_bytes`: pages `0 .. k`; a missing page
or missing/empty text is skipped, other pages contribute their marked
text. -/
def collectPages (doc : PdfDoc) (k : Nat) : List (List Char) :=
  (List.range k).filterMap fun i =>
    match doc.page i with
    | some p =>
      match p.pageText with
      | some txt => if txt = [] then none else some (pageMarker i txt)
      | none => none
    | none => none

/-- `PdfExtractor::extract_from_bytes`, with the poppler library modelled
as the oracle `parse` (`none` = structural parse failure). `.error` models
the `PyValueError` path, `.ok none` the quality-rejection path. -/
def extract_from_bytes (parse : List Nat → Option PdfDoc) (pdf_bytes : List Nat) :
    Except String (Option PdfExtractionResult) :=
  match parse pdf_bytes with
  | none => .error "PDF parsing failed"
  | some document =>
    let page_count := document.nPages
    let pages_to_process := min page_count MAX_PAGES
    let all_text := collectPages document pages_to_process
    if all_text = [] then .ok none
    else
      let combined_text := List.intercalate ['\n'] all_text
      let normalized := normalize_text combined_text
      if !is_good_quality normalized then .ok none
      else .ok (some ⟨normalized, page_count, pages_to_process⟩)

/-- `PdfExtractor::validate_text`. -/
def validate_text (t : List Char) : Bool := is_good_quality t

/-! ### Concrete instances used by the witnesses and counterexamples -/

/-- 20 three-letter words of the two-byte letter `é`: 79 characters but 139
UTF-8 bytes. -/
def shortCharText : List Char := List.intercalate [' '] (List.replicate 20 ['é', 'é', 'é'])

/-- An all-digit text: no alphabetic characters at all. -/
def digitText : List Char := "0123456789 0123456789 0123456789".data

def theWord : List Char := ['t', 'h', 'e']

/-- 19 copies of `the ` followed by one giant word of 29,999,942 letters
`a` and 69,999,982 digits `0`: 10^8 characters (all ASCII, so also 10^8
bytes), 29,999,999 of them alphabetic — character ratio 0.29999999, below
0.30 — yet `29999999 as f32` rounds (tie to even) to 30,000,000, the f32
quotient is bit-for-bit `0.3f32`, and the letter-ratio check passes. With
20 words the sampled checks are skipped, so validation succeeds. -/
def hugeLowRatioText : List Char :=
  (List.replicate 19 (theWord ++ [' '])).flatten ++
    (List.replicate 29999942 'a' ++ List.replicate 69999982 '0')

/-- A viewer URL whose `url=` target percent-decodes to the non-UTF-8 byte
`0xFF`. -/
def badDecodeUrl : List Nat := ascii "https://docs.google.com/gview?url=%FF"

/-- Network oracle answering only on the empty URL, to observe which URL
the GET goes to. -/
def emptyUrlNet : List Nat → Nat → Except Unit HttpResponse := fun u _ =>
  if u = [] then .ok ⟨true, none, [9]⟩ else .error ()

/-- A URL containing a `url=` query parameter but no `docs.google.com/gview`
marker. -/
def plainViewerUrl : List Nat := ascii "https://example.com/viewer?url=abc"

/-- The Google-Docs viewer URL base up to and including `url=`. -/
def gviewUrlBase : List Nat := ascii "https://docs.google.com/gview?url="

/-- A sample target URL for the viewer-redirect round trip. -/
def targetUrl : List Nat := ascii "https://example.com/doc.pdf"

/-- Network oracle whose first attempt reports an oversized declared
content length and whose later attempts succeed. -/
def oversizedThenOkNet : List Nat → Nat → Except Unit HttpResponse := fun _ a =>
  if a = 1 then .ok ⟨true, some (300 * 1024 * 1024), []⟩ else .ok ⟨true, none, [37]⟩

/-- Network oracle that always reports an oversized declared content
length. -/
def alwaysOversizedNet : List Nat → Nat → Except Unit HttpResponse := fun _ _ =>
  .ok ⟨true, some (MAX_PDF_SIZE + 1), []⟩

def sampleUrl : List Nat := ascii "https://example.com/a.pdf"

/-- Page text passing every validator check (25 words including the page
marker, so the sampled-only checks 4 and 5 are skipped). -/
def goodText : List Char :=
  ("the city council meeting agenda item public comment session board " ++
   "commission budget planning zoning development traffic safety park library police fire").data

def goodDoc : PdfDoc := ⟨1, fun _ => some ⟨some goodText⟩⟩

def goodParse : List Nat → Option PdfDoc := fun _ => some goodDoc

def goodResult : PdfExtractionResult :=
  ⟨normalize_text (List.intercalate ['\n'] [pageMarker 0 goodText]), 1, 1⟩

/-- Page text that passes validation but ends in `x|` followed by the
combining grave accent: the `'|'` → `'I'` substitution runs after NFC, so
the extracted text contains `I` + U+0300, which a second NFC pass would
compose to `Ì`. -/
def combiningText : List Char := goodText ++ " x|".data ++ [graveChar]

def combiningDoc : PdfDoc := ⟨1, fun _ => some ⟨some combiningText⟩⟩

def combiningParse : List Nat → Option PdfDoc := fun _ => some combiningDoc

def combiningResult : PdfExtractionResult :=
  ⟨normalize_text (List.intercalate ['\n'] [pageMarker 0 combiningText]), 1, 1⟩

/-- The non-idempotence seed for the normalizer: `a`, `|`, U+0300. -/
def pipeGraveText : List Char := ['a', '|', graveChar]

/-- Verification device: `runBound c m l k = true` means that, with `k`
pending copies of `c` already seen, scanning `l` never accumulates `m`
consecutive copies of `c`. -/
def runBound (c : Char) (m : Nat) : List Char → Nat → Bool
  | [], _ => true
  | x :: xs, k =>
    if x = c then decide (k + 1 < m) && runBound c m xs (k + 1)
    else runBound c m xs 0

/-! ## Basic lemmas -/

theorem length_le_byteLen (t : List Char) : t.length ≤ byteLen t := by
  induction t with
  | nil => simp [byteLen]
  | cons c cs ih =>
    have := Char.utf8Size_pos c
    simp only [byteLen, List.map_cons, List.sum_cons, List.length_cons] at ih ⊢
    omega

/-- If every attempt fails, the retry loop returns the error of the last
attempt. -/
theorem downloadAttempts_allFail (once : Nat → Except DownloadError (List Nat))
    (e : Nat → DownloadError) (h : ∀ a, once a = .error (e a)) :
    ∀ n attempt last, downloadAttempts once (n + 1) attempt last = .error (e (attempt + n)) := by
  have hstep : ∀ m attempt last, downloadAttempts once (m + 1) attempt last =
      downloadAttempts once m (attempt + 1) (some (e attempt)) := by
    intro m attempt last
    have hdef : downloadAttempts once (m + 1) attempt last =
        match once attempt with
        | .ok b => .ok b
        | .error e2 => downloadAttempts once m (attempt + 1) (some e2) := rfl
    rw [hdef, h attempt]
  intro n
  induction n with
  | zero =>
    intro attempt last
    rw [hstep 0 attempt last]
    simp [downloadAttempts]
  | succ k ih =>
    intro attempt last
    rw [hstep (k + 1) attempt last, ih]
    congr 2
    omega

/-! ## Claims C1, C2, C3, C6, C10 -/

/-- C1, counterexample: an attempt that fails with `TooLarge` (oversized
declared content length) is retried: with an oracle whose first attempt is
oversized and whose second attempt succeeds, `download` performs the second
attempt and returns its bytes instead of returning `TooLarge` without
further attempts. -/
theorem claim_C1_counterexample :
    download_once (oversizedThenOkNet (extract_google_docs_url sampleUrl) 1) =
      .error (.TooLarge (300 * 1024 * 1024)) ∧
    download oversizedThenOkNet sampleUrl = .ok [37] := ⟨rfl, rfl⟩

/-- C1, amended: size-cap (`TooLarge`) failures are retried like any other
failure; when every attempt fails with `TooLarge`, `download` returns the
`TooLarge` error of the last (third) attempt after exhausting all retries. -/
theorem claim_C1 (net : List Nat → Nat → Except Unit HttpResponse) (url : List Nat)
    (sz : Nat → Nat) (h1 : url ≠ []) (h2 : url.length ≤ 2000)
    (h3 : ∀ a, download_once (net (extract_google_docs_url url) a) = .error (.TooLarge (sz a))) :
    download net url = .error (.TooLarge (sz 3)) := by
  unfold download
  rw [if_neg (by simp only [Bool.or_eq_true, decide_eq_true_eq, not_or]; exact ⟨h1, by omega⟩)]
  have := downloadAttempts_allFail (fun a => download_once (net (extract_google_docs_url url) a))
    (fun a => .TooLarge (sz a)) (fun a => h3 a) 2 1 none
  simpa [MAX_RETRIES] using this

/-- C1, witness for the amended claim at a concrete oracle whose every
attempt reports an oversized payload. -/
theorem claim_C1_witness :
    sampleUrl ≠ [] ∧ sampleUrl.length ≤ 2000 ∧
    download alwaysOversizedNet sampleUrl = .error (.TooLarge (MAX_PDF_SIZE + 1)) :=
  ⟨by decide, by decide,
    claim_C1 alwaysOversizedNet sampleUrl (fun _ => MAX_PDF_SIZE + 1)
      (by decide) (by decide) (fun _ => rfl)⟩

/-- C2, counterexample: a text of 79 characters (20 words of two-byte
letters) has fewer than 100 characters, yet `is_good_quality` returns true,
because the length check uses the UTF-8 byte length (139 here), not the
character count. -/
theorem claim_C2_counterexample :
    shortCharText.length < 100 ∧ is_good_quality shortCharText = true := by
  exact ⟨by decide, by decide⟩

/-- C2, amended: for every text whose UTF-8 byte length (Rust `str::len`)
is less than 100, `is_good_quality` returns false. -/
theorem claim_C2 (t : List Char) (h : byteLen t < 100) : is_good_quality t = false := by
  unfold is_good_quality MIN_TEXT_LENGTH
  simp [h]

/-- C2, witness for the amended claim. -/
theorem claim_C2_witness : byteLen ['h', 'i'] < 100 ∧ is_good_quality ['h', 'i'] = false :=
  ⟨by decide, claim_C2 ['h', 'i'] (by decide)⟩

theorem roundSig_small (n : Nat) (h : n < 16777216) : roundSig n = n := by
  unfold roundSig
  rw [if_pos (by norm_num; omega)]

theorem roundF32Nat_small (n : Nat) (h : n < 16777216) : roundF32Nat n = some n := by
  have hov : (16777216 : Nat) ≤ F32_OVERFLOW := by decide
  unfold roundF32Nat
  rw [if_neg (by omega), roundSig_small n h]

theorem f32RatioLtPoint3_of_small (L B : Nat) (hL : L < 16777216) (hB : B < 16777216)
    (h : L * 67108864 < B * MID_BELOW_POINT3) : f32RatioLtPoint3 L B = true := by
  unfold f32RatioLtPoint3
  rw [roundF32Nat_small L hL, roundF32Nat_small B hB]
  exact decide_eq_true h

theorem byteLen_append (a b : List Char) : byteLen (a ++ b) = byteLen a + byteLen b := by
  simp [byteLen]

theorem byteLen_replicate (n : Nat) (c : Char) :
    byteLen (List.replicate n c) = n * c.utf8Size := by
  simp [byteLen, List.map_replicate, List.sum_replicate, smul_eq_mul]

theorem splitWsAux_word (w : List Char) (hw : ∀ c ∈ w, rustIsWhitespace c = false) :
    ∀ rest acc, splitWsAux (w ++ rest) acc = splitWsAux rest (w.reverse ++ acc) := by
  induction w with
  | nil => intro rest acc; simp
  | cons c w2 ih =>
    intro rest acc
    rw [List.cons_append, splitWsAux, if_neg (by simp [hw c (by simp)])]
    rw [ih (fun x hx => hw x (List.mem_cons_of_mem _ hx)) rest (c :: acc)]
    congr 1
    simp

theorem splitWsAux_space (s : Char) (hs : rustIsWhitespace s = true) (rest acc : List Char)
    (ha : acc ≠ []) :
    splitWsAux (s :: rest) acc = acc.reverse :: splitWsAux rest [] := by
  rw [splitWsAux, if_pos hs, if_neg ha]

theorem splitWs_word_only (w : List Char) (hw : ∀ c ∈ w, rustIsWhitespace c = false)
    (hne : w ≠ []) : splitWhitespace w = [w] := by
  unfold splitWhitespace
  have hx := splitWsAux_word w hw [] []
  rw [List.append_nil] at hx
  rw [hx, splitWsAux, if_neg (by simp [hne])]
  simp

theorem split_prefix_the (giant : List Char) (hg : ∀ c ∈ giant, rustIsWhitespace c = false)
    (hne : giant ≠ []) :
    ∀ k, splitWhitespace ((List.replicate k (theWord ++ [' '])).flatten ++ giant) =
      List.replicate k theWord ++ [giant] := by
  intro k
  induction k with
  | zero =>
    simp only [List.replicate_zero, List.flatten_nil, List.nil_append]
    exact splitWs_word_only giant hg hne
  | succ p ih =>
    rw [List.replicate_succ, List.flatten_cons]
    unfold splitWhitespace at ih ⊢
    rw [List.append_assoc, List.append_assoc, List.singleton_append]
    rw [splitWsAux_word theWord (by decide) _ []]
    rw [splitWsAux_space ' ' (by decide) _ _ (by simp [theWord])]
    rw [ih]
    simp [theWord, List.replicate_succ]

/-- Evaluation scheme for `is_good_quality` on a text that passes every
check while the sampled checks are skipped, phrased so that the concrete
word list is never traversed by a default simp set (the counterexample
below contains a replicate of length 3 * 10^7, which the evaluating
simprocs would expand). -/
theorem is_good_quality_eval (t : List Char) (B F : Nat) (ws : List (List Char))
    (hB : byteLen t = B) (hF : (t.filter isAlphabetic).length = F)
    (hws : splitWhitespace t = ws)
    (h1 : ¬ B < MIN_TEXT_LENGTH) (h2 : ¬ B = 0)
    (h3 : f32RatioLtPoint3 F B = false)
    (h4 : ¬ ws.length < MIN_WORDS) (h5 : ¬ 50 ≤ (ws.take 100).length) :
    is_good_quality t = true := by
  unfold is_good_quality
  simp only [hB, hF, hws, h3]
  rw [if_neg h1, if_neg h2, if_neg Bool.false_ne_true, if_neg h4]
  have hd : decide (50 ≤ (ws.take 100).length) = false := by
    simp only [decide_eq_false_iff_not]
    exact h5
  rw [hd]
  simp only [Bool.false_and]
  rw [if_neg Bool.false_ne_true, if_neg Bool.false_ne_true]

/-- C3, counterexample: a 10^8-character ASCII text with 29,999,999
alphabetic characters has letter-to-character ratio 0.29999999 < 0.30, yet
`is_good_quality` returns true: `29999999 as f32` rounds (tie to even) to
30,000,000, so the f32 quotient equals `0.3f32` bit-for-bit and the ratio
check does not fire; with 20 words the sampled checks are skipped. -/
theorem claim_C3_counterexample :
    (hugeLowRatioText.filter isAlphabetic).length * 10 < hugeLowRatioText.length * 3 ∧
    is_good_quality hugeLowRatioText = true := by
  have hpre_len : ((List.replicate 19 (theWord ++ [' '])).flatten).length = 76 := by decide
  have hpre_bl : byteLen ((List.replicate 19 (theWord ++ [' '])).flatten) = 76 := by decide
  have hpre_f :
      (((List.replicate 19 (theWord ++ [' '])).flatten).filter isAlphabetic).length = 57 := by
    decide
  have hlen : hugeLowRatioText.length = 100000000 := by
    unfold hugeLowRatioText
    rw [List.length_append, List.length_append, hpre_len, List.length_replicate,
      List.length_replicate]
  have hB : byteLen hugeLowRatioText = 100000000 := by
    unfold hugeLowRatioText
    rw [byteLen_append, byteLen_append, hpre_bl, byteLen_replicate, byteLen_replicate,
      show ('a').utf8Size = 1 from by decide, show ('0').utf8Size = 1 from by decide]
  have hFa : List.filter isAlphabetic (List.replicate 29999942 'a') =
      List.replicate 29999942 'a' := List.filter_replicate_of_pos (by decide)
  have hF0 : List.filter isAlphabetic (List.replicate 69999982 '0') = [] :=
    List.filter_replicate_of_neg (by decide)
  have hF : (hugeLowRatioText.filter isAlphabetic).length = 29999999 := by
    unfold hugeLowRatioText
    rw [List.filter_append, List.filter_append, List.length_append, List.length_append, hpre_f,
      hFa, hF0, List.length_replicate, List.length_nil]
  have hsplit : splitWhitespace hugeLowRatioText =
      List.replicate 19 theWord ++
        [List.replicate 29999942 'a' ++ List.replicate 69999982 '0'] := by
    unfold hugeLowRatioText
    apply split_prefix_the
    · intro c hc
      rcases List.mem_append.mp hc with h1 | h1 <;>
        rw [List.eq_of_mem_replicate h1] <;> decide
    · intro he
      have hl := congrArg List.length he
      rw [List.length_append, List.length_replicate, List.length_replicate,
        List.length_nil] at hl
      omega
  have hwords : (List.replicate 19 theWord ++
      [List.replicate 29999942 'a' ++ List.replicate 69999982 '0']).length = 20 := by
    rw [List.length_append, List.length_replicate, List.length_singleton]
  have htake : List.take 100 (List.replicate 19 theWord ++
        [List.replicate 29999942 'a' ++ List.replicate 69999982 '0']) =
      List.replicate 19 theWord ++
        [List.replicate 29999942 'a' ++ List.replicate 69999982 '0'] :=
    List.take_of_length_le (by
      rw [List.length_append, List.length_replicate, List.length_singleton]
      omega)
  constructor
  · rw [hF, hlen]
    norm_num
  · exact is_good_quality_eval hugeLowRatioText 100000000 29999999 _ hB hF hsplit
      (by unfold MIN_TEXT_LENGTH; omega) (by omega) (by decide)
      (by rw [hwords]; unfold MIN_WORDS; omega)
      (by rw [htake, hwords]; omega)

/-- C3, amended: for every text of fewer than 2^24 bytes whose ratio of
alphabetic characters to total characters is below 0.30, `is_good_quality`
returns false. The bound keeps both f32 conversions exact and the exact
quotient more than half a rounding step below `0.3f32`, so the f32 ratio
check fires; without it the claim fails (see the counterexample). -/
theorem claim_C3 (t : List Char) (hsize : byteLen t < 16777216)
    (h : (t.filter isAlphabetic).length * 10 < t.length * 3) :
    is_good_quality t = false := by
  unfold is_good_quality
  by_cases hlen : byteLen t < MIN_TEXT_LENGTH
  · simp [hlen]
  · have h0 : ¬ byteLen t = 0 := by
      unfold MIN_TEXT_LENGTH at hlen; omega
    have hchars := length_le_byteLen t
    have hr : f32RatioLtPoint3 (t.filter isAlphabetic).length (byteLen t) = true := by
      apply f32RatioLtPoint3_of_small _ _ (by omega) hsize
      unfold MID_BELOW_POINT3
      omega
    simp [hlen, h0, hr]

/-- C3, witness for the amended claim: an all-digit text (32 bytes, letter
ratio 0) is rejected. -/
theorem claim_C3_witness :
    byteLen digitText < 16777216 ∧
    (digitText.filter isAlphabetic).length * 10 < digitText.length * 3 ∧
    is_good_quality digitText = false :=
  ⟨by decide, by decide, claim_C3 digitText (by decide) (by decide)⟩

/-- C6: a URL that does not match the rewrite pattern (it lacks the
`docs.google.com/gview` marker or lacks `url=`) passes through the URL
resolution step unchanged. -/
theorem claim_C6 (url : List Nat)
    (h : containsSeq gviewPat url = false ∨ containsSeq urlEqPat url = false) :
    extract_google_docs_url url = url := by
  unfold extract_google_docs_url
  rcases h with h | h
  · simp [h]
  · by_cases hg : containsSeq gviewPat url = true
    · have hn : findSeq urlEqPat url = none := by
        unfold containsSeq at h
        cases hf : findSeq urlEqPat url with
        | none => rfl
        | some v => rw [hf] at h; simp at h
      simp [hg, hn]
    · simp only [Bool.not_eq_true] at hg
      simp [hg]

/-- C6, witness at a URL containing neither marker. -/
theorem claim_C6_witness :
    containsSeq gviewPat sampleUrl = false ∧
    extract_google_docs_url sampleUrl = sampleUrl :=
  ⟨by decide, claim_C6 sampleUrl (Or.inl (by decide))⟩

/-- C10: for the viewer URL whose target `%FF` decodes to invalid UTF-8,
URL resolution returns the empty string (`unwrap_or_default`), and the
subsequent GET is issued against the empty URL: an oracle that only
answers on the empty URL sees the request succeed. -/
theorem claim_C10 :
    extract_google_docs_url badDecodeUrl = [] ∧
    download emptyUrlNet badDecodeUrl = .ok [9] :=
  ⟨by decide, rfl⟩

/-! ## Search and codec lemmas for the viewer-redirect claims -/

theorem isPrefixOf_self_append (pat b : List Nat) : pat.isPrefixOf (pat ++ b) = true := by
  induction pat with
  | nil => simp [List.isPrefixOf]
  | cons x xs ih => simp [List.isPrefixOf, ih]

theorem isPrefixOf_append_of_length_le (pat a b : List Nat) (h : pat.length ≤ a.length) :
    pat.isPrefixOf (a ++ b) = pat.isPrefixOf a := by
  induction pat generalizing a with
  | nil => simp [List.isPrefixOf]
  | cons x xs ih =>
    cases a with
    | nil => simp at h
    | cons y ys =>
      simp only [List.cons_append, List.isPrefixOf, List.append_eq]
      rw [ih ys (by simpa using h)]

theorem findSeqAux_eq_some (pat l : List Nat) (k i : Nat)
    (hm : pat.isPrefixOf (l.drop k) = true)
    (hb : ∀ j, j < k → pat.isPrefixOf (l.drop j) = false) :
    findSeqAux pat l i = some (k + i) := by
  induction k generalizing l i with
  | zero =>
    rw [List.drop_zero] at hm
    rw [findSeqAux.eq_def]
    simp [hm]
  | succ k ih =>
    have h0 : pat.isPrefixOf l = false := by simpa using hb 0 (by omega)
    cases l with
    | nil =>
      rw [List.drop_nil] at hm
      rw [hm] at h0
      exact absurd h0 (by simp)
    | cons x xs =>
      rw [findSeqAux.eq_def]
      dsimp only
      rw [if_neg (by simp [h0])]
      have := ih xs (i + 1) (by simpa using hm)
        (fun j hj => by simpa using hb (j + 1) (by omega))
      exact this.trans (congrArg some (by omega))

theorem findSeq_eq_some (pat l : List Nat) (k : Nat)
    (hm : pat.isPrefixOf (l.drop k) = true)
    (hb : ∀ j, j < k → pat.isPrefixOf (l.drop j) = false) :
    findSeq pat l = some k := by
  unfold findSeq
  rw [findSeqAux_eq_some pat l k 0 hm hb]
  simp

/-- First occurrence of `pat` inside the concrete block `a` is unaffected
by an arbitrary continuation `X`. -/
theorem findSeq_concat (pat a X : List Nat) (k : Nat)
    (h1 : k + pat.length ≤ a.length)
    (h2 : pat.isPrefixOf (a.drop k) = true)
    (h3 : ∀ j, j < k → pat.isPrefixOf (a.drop j) = false) :
    findSeq pat (a ++ X) = some k := by
  apply findSeq_eq_some
  · rw [List.drop_append_of_le_length (by omega),
      isPrefixOf_append_of_length_le _ _ _ (by simp [List.length_drop]; omega)]
    exact h2
  · intro j hj
    rw [List.drop_append_of_le_length (by omega),
      isPrefixOf_append_of_length_le _ _ _ (by simp [List.length_drop]; omega)]
    exact h3 j hj

theorem findSeqAux_singleton_none (c : Nat) (l : List Nat) (h : c ∉ l) :
    ∀ i, findSeqAux [c] l i = none := by
  induction l with
  | nil => intro i; rw [findSeqAux.eq_def]; simp [List.isPrefixOf]
  | cons x xs ih =>
    intro i
    have hcx : ¬ c = x := fun he => h (by simp [he])
    have hx : ([c].isPrefixOf (x :: xs)) = false := by
      simp [List.isPrefixOf, hcx]
    rw [findSeqAux.eq_def]
    dsimp only
    rw [if_neg (by simp [hx])]
    exact ih (fun hm => h (List.mem_cons_of_mem _ hm)) (i + 1)

theorem findSeq_singleton_none (c : Nat) (l : List Nat) (h : c ∉ l) :
    findSeq [c] l = none := findSeqAux_singleton_none c l h 0

theorem findSeqAux_singleton_concat (c : Nat) (l r : List Nat) (h : c ∉ l) :
    ∀ i, findSeqAux [c] (l ++ c :: r) i = some (l.length + i) := by
  induction l with
  | nil =>
    intro i
    rw [findSeqAux.eq_def]
    simp [List.isPrefixOf]
  | cons x xs ih =>
    intro i
    have hcx : ¬ c = x := fun he => h (by simp [he])
    rw [findSeqAux.eq_def]
    dsimp only
    rw [if_neg (by simp [List.isPrefixOf, hcx])]
    have := ih (fun hm => h (List.mem_cons_of_mem _ hm)) (i + 1)
    exact this.trans (congrArg some (by simp only [List.length_cons]; omega))

theorem findSeq_singleton_concat (c : Nat) (l r : List Nat) (h : c ∉ l) :
    findSeq [c] (l ++ c :: r) = some l.length := by
  unfold findSeq
  rw [findSeqAux_singleton_concat c l r h 0]
  simp

theorem hexVal_hexDigit : ∀ n, n < 16 → hexVal (hexDigit n) = some n := by decide

theorem le_hexDigit (m : Nat) : 48 ≤ hexDigit m := by
  unfold hexDigit; split <;> omega

theorem amp_not_mem_percentEncode (t : List Nat) : 38 ∉ percentEncodeBytes t := by
  induction t with
  | nil => simp [percentEncodeBytes]
  | cons b rest ih =>
    intro hmem
    simp only [percentEncodeBytes, List.map_cons, List.flatten_cons] at hmem
    rcases List.mem_append.mp hmem with hl | hr
    · by_cases hu : isUnreserved b = true
      · rw [if_pos hu] at hl
        simp only [List.mem_singleton] at hl
        rw [← hl] at hu
        exact absurd hu (by decide)
      · rw [if_neg hu] at hl
        have g1 := le_hexDigit (b / 16)
        have g2 := le_hexDigit (b % 16)
        simp only [List.mem_cons, List.mem_singleton, List.not_mem_nil, or_false] at hl
        rcases hl with h | h | h <;> omega
    · exact ih hr

theorem decode_cons_ne (b : Nat) (h : ¬ b = 37) (M : List Nat) :
    percentDecodeBytes (b :: M) = b :: percentDecodeBytes M := by
  match M with
  | [] => rfl
  | [y] => rfl
  | y :: z :: w => simp [percentDecodeBytes, h]

theorem decode_triple (b : Nat) (hb : b < 256) (M : List Nat) :
    percentDecodeBytes (37 :: hexDigit (b / 16) :: hexDigit (b % 16) :: M) =
      b :: percentDecodeBytes M := by
  have h1 : hexVal (hexDigit (b / 16)) = some (b / 16) := hexVal_hexDigit _ (by omega)
  have h2 : hexVal (hexDigit (b % 16)) = some (b % 16) := hexVal_hexDigit _ (by omega)
  simp [percentDecodeBytes, h1, h2]
  omega

theorem decode_encode (t : List Nat) (hb : ∀ b ∈ t, b < 256) :
    percentDecodeBytes (percentEncodeBytes t) = t := by
  induction t with
  | nil => rfl
  | cons b rest ih =>
    have hb256 : b < 256 := hb b (by simp)
    have ihr := ih (fun x hx => hb x (by simp [hx]))
    by_cases hu : isUnreserved b = true
    · have henc : percentEncodeBytes (b :: rest) = b :: percentEncodeBytes rest := by
        simp [percentEncodeBytes, hu]
      have hb37 : ¬ b = 37 := by
        intro h; rw [h] at hu; exact absurd hu (by decide)
      rw [henc, decode_cons_ne b hb37, ihr]
    · have henc : percentEncodeBytes (b :: rest) =
          37 :: hexDigit (b / 16) :: hexDigit (b % 16) :: percentEncodeBytes rest := by
        simp [percentEncodeBytes, hu]
      rw [henc, decode_triple b hb256, ihr]

/-- Resolution of a viewer URL `gviewUrlBase ++ X` when `X` contains no
`&`: the whole of `X` is percent-decoded. -/
theorem extract_gview_noAmp (X : List Nat) (hno : findSeq [38] X = none) :
    extract_google_docs_url (gviewUrlBase ++ X) =
      (if utf8Valid (percentDecodeBytes X) then percentDecodeBytes X else []) := by
  have hcontain : containsSeq gviewPat (gviewUrlBase ++ X) = true := by
    unfold containsSeq
    rw [findSeq_concat gviewPat gviewUrlBase X 8 (by decide) (by decide) (by decide)]
    rfl
  have hfind : findSeq urlEqPat (gviewUrlBase ++ X) = some 30 :=
    findSeq_concat urlEqPat gviewUrlBase X 30 (by decide) (by decide) (by decide)
  have hdrop : List.drop (30 + 4) (gviewUrlBase ++ X) = X := by
    have h34 : (30 : Nat) + 4 = gviewUrlBase.length := by decide
    rw [h34, List.drop_left]
  unfold extract_google_docs_url
  rw [if_pos hcontain, hfind]
  dsimp only
  rw [hdrop, hno]

/-- Resolution of a viewer URL `gviewUrlBase ++ X` when `X` has its first
`&` at index `e`: the part of `X` before the `&` is percent-decoded. -/
theorem extract_gview_amp (X : List Nat) (e : Nat) (hfind38 : findSeq [38] X = some e) :
    extract_google_docs_url (gviewUrlBase ++ X) =
      (if utf8Valid (percentDecodeBytes (X.take e)) then percentDecodeBytes (X.take e)
       else []) := by
  have hcontain : containsSeq gviewPat (gviewUrlBase ++ X) = true := by
    unfold containsSeq
    rw [findSeq_concat gviewPat gviewUrlBase X 8 (by decide) (by decide) (by decide)]
    rfl
  have hfind : findSeq urlEqPat (gviewUrlBase ++ X) = some 30 :=
    findSeq_concat urlEqPat gviewUrlBase X 30 (by decide) (by decide) (by decide)
  have hdrop : List.drop (30 + 4) (gviewUrlBase ++ X) = X := by
    have h34 : (30 : Nat) + 4 = gviewUrlBase.length := by decide
    rw [h34, List.drop_left]
  unfold extract_google_docs_url
  rw [if_pos hcontain, hfind]
  dsimp only
  rw [hdrop, hfind38]

/-! ## Claim C5 (viewer-redirect extraction) -/

/-- C5, counterexample: a URL containing a `url=` query parameter but not
the `docs.google.com/gview` marker matches the claim's pattern (which asks
only for a `url=` parameter), yet the resolution step returns it unchanged
instead of the decoded target `abc`. -/
theorem claim_C5_counterexample :
    containsSeq urlEqPat plainViewerUrl = true ∧
    extract_google_docs_url plainViewerUrl = plainViewerUrl ∧
    plainViewerUrl ≠ ascii "abc" :=
  ⟨by decide, by decide, by decide⟩

/-- C5, amended: for every URL of the form
`https://docs.google.com/gview?url=<percent-encoded target>[&<suffix>]`
(the code's pattern requires the `docs.google.com/gview` marker, not just a
`url=` parameter), the resolution step returns the percent-decoded target —
equal to the original un-encoded target when it is valid UTF-8 — with
everything from the first `&` on stripped. -/
theorem claim_C5 (t rest : List Nat) (hb : ∀ b ∈ t, b < 256) (hv : utf8Valid t = true) :
    extract_google_docs_url (gviewUrlBase ++ (percentEncodeBytes t ++ 38 :: rest)) = t ∧
    extract_google_docs_url (gviewUrlBase ++ percentEncodeBytes t) = t := by
  constructor
  · have hfind : findSeq [38] (percentEncodeBytes t ++ 38 :: rest) =
        some (percentEncodeBytes t).length :=
      findSeq_singleton_concat 38 _ rest (amp_not_mem_percentEncode t)
    rw [extract_gview_amp _ _ hfind, List.take_left, decode_encode t hb, if_pos hv]
  · have hno : findSeq [38] (percentEncodeBytes t) = none :=
      findSeq_singleton_none 38 _ (amp_not_mem_percentEncode t)
    rw [extract_gview_noAmp _ hno, decode_encode t hb, if_pos hv]

/-- C5, witness for the amended claim at a concrete target URL with and
without a trailing query parameter. -/
theorem claim_C5_witness :
    (∀ b ∈ targetUrl, b < 256) ∧ utf8Valid targetUrl = true ∧
    extract_google_docs_url
      (gviewUrlBase ++ (percentEncodeBytes targetUrl ++ 38 :: ascii "embedded=true")) =
      targetUrl ∧
    extract_google_docs_url (gviewUrlBase ++ percentEncodeBytes targetUrl) = targetUrl :=
  ⟨by decide, by decide,
    (claim_C5 targetUrl (ascii "embedded=true") (by decide) (by decide)).1,
    (claim_C5 targetUrl (ascii "embedded=true") (by decide) (by decide)).2⟩

/-! ## Claims C4, C8, C9 (extractor) -/

/-- C4: whenever `extract_from_bytes` returns `Ok(Some(result))`, the
result satisfies `pages_processed = min page_count 1000`, hence
`pages_processed ≤ page_count` and `pages_processed ≤ 1000`. -/
theorem claim_C4 (parse : List Nat → Option PdfDoc) (bytes : List Nat)
    (r : PdfExtractionResult) (h : extract_from_bytes parse bytes = .ok (some r)) :
    r.pages_processed = min r.page_count 1000 ∧ r.pages_processed ≤ r.page_count ∧
    r.pages_processed ≤ 1000 := by
  unfold extract_from_bytes at h
  cases hp : parse bytes with
  | none => rw [hp] at h; exact absurd h (by simp)
  | some doc =>
    rw [hp] at h
    dsimp only at h
    split at h
    · simp at h
    · split at h
      · simp at h
      · simp only [Except.ok.injEq, Option.some.injEq] at h
        subst h
        refine ⟨rfl, ?_, ?_⟩ <;> simp [MAX_PAGES]

/-- C4, witness at a one-page document whose text passes validation. -/
theorem claim_C4_witness :
    extract_from_bytes goodParse [0] = .ok (some goodResult) ∧
    goodResult.pages_processed = min goodResult.page_count 1000 ∧
    goodResult.pages_processed ≤ goodResult.page_count ∧
    goodResult.pages_processed ≤ 1000 :=
  ⟨rfl, claim_C4 goodParse [0] goodResult rfl⟩

/-- C9, counterexample to "already normalized": a page whose text contains
`|` directly followed by the combining grave accent yields an
`Ok(Some(result))` whose text is not a fixed point of `normalize_text`
(the substitution `'|'` → `'I'` runs after NFC, and a second NFC pass
composes `I` + U+0300 into `Ì`). -/
theorem claim_C9_counterexample :
    extract_from_bytes combiningParse [0] = .ok (some combiningResult) ∧
    normalize_text combiningResult.text ≠ combiningResult.text :=
  ⟨rfl, by decide⟩

/-- C9, amended: whenever `extract_from_bytes` returns `Ok(Some(result))`,
the returned text passes validation (`validate_text` is true) and is
non-empty. (It need not be a fixed point of `normalize_text`; see the
counterexample.) -/
theorem claim_C9 (parse : List Nat → Option PdfDoc) (bytes : List Nat)
    (r : PdfExtractionResult) (h : extract_from_bytes parse bytes = .ok (some r)) :
    validate_text r.text = true ∧ r.text ≠ [] := by
  unfold extract_from_bytes at h
  cases hp : parse bytes with
  | none => rw [hp] at h; exact absurd h (by simp)
  | some doc =>
    rw [hp] at h
    dsimp only at h
    split at h
    · simp at h
    · split at h
      · simp at h
      · rename_i hq
        simp only [Except.ok.injEq, Option.some.injEq] at h
        subst h
        have hgood : is_good_quality (normalize_text (List.intercalate ['\n']
            (collectPages doc (min doc.nPages MAX_PAGES)))) = true := by
          simpa using hq
        refine ⟨hgood, ?_⟩
        intro hnil
        dsimp only at hnil
        rw [hnil] at hgood
        exact absurd hgood (by decide)

/-- C9, witness for the amended claim. -/
theorem claim_C9_witness :
    extract_from_bytes goodParse [0] = .ok (some goodResult) ∧
    validate_text goodResult.text = true ∧ goodResult.text ≠ [] :=
  ⟨rfl, claim_C9 goodParse [0] goodResult rfl⟩

/-! ## Normalizer lemmas (claim C7) -/

theorem composePair_eq_none (a b : Char) (h : isCombining b = false) :
    composePair a b = none := by
  have hb : ¬ b = graveChar := by simpa [isCombining] using h
  simp [composePair, hb]

theorem nfcAux_id (fuel : Nat) :
    ∀ l : List Char, (∀ c ∈ l, isCombining c = false) → nfcAux fuel l = l := by
  induction fuel with
  | zero => intro l _; rfl
  | succ f ih =>
    intro l h
    cases l with
    | nil => rfl
    | cons a tl =>
      cases tl with
      | nil => rfl
      | cons b rest =>
        have hnone : composePair a b = none := composePair_eq_none a b (h b (by simp))
        have hstep : nfcAux (f + 1) (a :: b :: rest) =
            match composePair a b with
            | some c => nfcAux f (c :: rest)
            | none => a :: nfcAux f (b :: rest) := rfl
        rw [hstep, hnone]
        exact congrArg (List.cons a)
          (ih (b :: rest) fun c hc => h c (List.mem_cons_of_mem _ hc))

theorem nfc_id (l : List Char) (h : ∀ c ∈ l, isCombining c = false) : nfc l = l :=
  nfcAux_id l.length l h

theorem mem_emitRun (x c : Char) (th k n : Nat) (h : x ∈ emitRun c th k n) : x = c := by
  unfold emitRun at h
  split at h <;> exact List.eq_of_mem_replicate h

theorem mem_collapseAux (x c : Char) (th k : Nat) :
    ∀ l n, x ∈ collapseAux c th k n l → x = c ∨ x ∈ l := by
  intro l
  induction l with
  | nil => intro n h; exact Or.inl (mem_emitRun x c th k n h)
  | cons y ys ih =>
    intro n h
    rw [collapseAux] at h
    by_cases hyc : y = c
    · rw [if_pos hyc] at h
      rcases ih (n + 1) h with h1 | h1
      · exact Or.inl h1
      · exact Or.inr (List.mem_cons_of_mem _ h1)
    · rw [if_neg hyc] at h
      rcases List.mem_append.mp h with h1 | h1
      · exact Or.inl (mem_emitRun x c th k n h1)
      · rcases List.mem_cons.mp h1 with h2 | h2
        · exact Or.inr (by simp [h2])
        · rcases ih 0 h2 with h3 | h3
          · exact Or.inl h3
          · exact Or.inr (List.mem_cons_of_mem _ h3)

theorem mem_trimRight (x : Char) : ∀ l, x ∈ trimRight l → x ∈ l := by
  intro l
  induction l with
  | nil => intro h; simp [trimRight] at h
  | cons y ys ih =>
    intro h
    have hstep : trimRight (y :: ys) =
        match trimRight ys with
        | [] => if rustIsWhitespace y then [] else [y]
        | z :: zs => y :: z :: zs := rfl
    cases htr : trimRight ys with
    | nil =>
      rw [hstep, htr] at h
      by_cases hw : rustIsWhitespace y = true
      · rw [if_pos hw] at h; exact absurd h (List.not_mem_nil x)
      · rw [if_neg hw] at h
        simp only [List.mem_singleton] at h
        simp [h]
    | cons z zs =>
      rw [hstep, htr] at h
      rcases List.mem_cons.mp h with h1 | h1
      · simp [h1]
      · rw [← htr] at h1
        exact List.mem_cons_of_mem _ (ih h1)

theorem mem_trimList (x : Char) (l : List Char) (h : x ∈ trimList l) : x ∈ l :=
  List.Sublist.mem (mem_trimRight x _ h) (List.dropWhile_sublist _)

theorem runBound_mono (c : Char) (m : Nat) :
    ∀ l k j, j ≤ k → runBound c m l k = true → runBound c m l j = true := by
  intro l
  induction l with
  | nil => intro k j _ _; rfl
  | cons x xs ih =>
    intro k j hj h
    rw [runBound] at h ⊢
    by_cases hx : x = c
    · rw [if_pos hx] at h ⊢
      simp only [Bool.and_eq_true, decide_eq_true_eq] at h ⊢
      exact ⟨by omega, ih (k + 1) (j + 1) (by omega) h.2⟩
    · rw [if_neg hx] at h ⊢
      exact h

theorem runBound_all_ne (c : Char) (m : Nat) :
    ∀ l k, (∀ x ∈ l, ¬ x = c) → runBound c m l k = true := by
  intro l
  induction l with
  | nil => intro k _; rfl
  | cons y ys ih =>
    intro k h
    rw [runBound, if_neg (h y (by simp))]
    exact ih 0 fun x hx => h x (List.mem_cons_of_mem _ hx)

theorem runBound_replicate (c : Char) (m : Nat) :
    ∀ n k, k + n < m → runBound c m (List.replicate n c) k = true := by
  intro n
  induction n with
  | zero => intro k _; rfl
  | succ p ih =>
    intro k h
    rw [List.replicate_succ, runBound, if_pos rfl]
    simp only [Bool.and_eq_true, decide_eq_true_eq]
    exact ⟨by omega, ih (k + 1) (by omega)⟩

theorem runBound_rep_append (c : Char) (m : Nat) (v : List Char) :
    ∀ j k, k + j < m → runBound c m (List.replicate j c ++ v) k = runBound c m v (k + j) := by
  intro j
  induction j with
  | zero => intro k _; simp
  | succ p ih =>
    intro k h
    rw [List.replicate_succ, List.cons_append, runBound, if_pos rfl]
    rw [ih (k + 1) (by omega)]
    have hd : decide (k + 1 < m) = true := by simp; omega
    rw [hd]
    simp only [Bool.true_and]
    congr 1
    omega

theorem runBound_ne_append (c : Char) (m : Nat) (v : List Char) :
    ∀ u k, (∀ y ∈ u, ¬ y = c) → u ≠ [] → runBound c m (u ++ v) k = runBound c m v 0 := by
  intro u
  induction u with
  | nil => intro k _ hne; exact absurd rfl hne
  | cons y ys ih =>
    intro k h _
    rw [List.cons_append, runBound, if_neg (h y (by simp))]
    cases ys with
    | nil => simp [runBound]
    | cons z zs => exact ih 0 (fun x hx => h x (List.mem_cons_of_mem _ hx)) (by simp)

theorem runBound_any_k (c : Char) (m : Nat) (l : List Char) (h0 : runBound c m l 0 = true)
    (hh : l.head? ≠ some c) (k : Nat) : runBound c m l k = true := by
  cases l with
  | nil => rfl
  | cons y ys =>
    have hy : ¬ y = c := fun he => hh (by simp [he])
    rw [runBound, if_neg hy] at h0 ⊢
    exact h0

theorem runBound_ne_append2 (c : Char) (m : Nat) (v u : List Char) (k : Nat)
    (h : ∀ y ∈ u, ¬ y = c) (hv : runBound c m v k = true)
    (hv0 : runBound c m v 0 = true) : runBound c m (u ++ v) k = true := by
  cases u with
  | nil => exact hv
  | cons y ys =>
    rw [runBound_ne_append c m v (y :: ys) k h (by simp)]
    exact hv0

theorem collapse_noRun (c : Char) (th keep : Nat) (hkeep : keep < th) :
    ∀ l n, runBound c th (collapseAux c th keep n l) 0 = true := by
  intro l
  induction l with
  | nil =>
    intro n
    rw [collapseAux]
    unfold emitRun
    split
    · exact runBound_replicate c th keep 0 (by omega)
    · rename_i hn
      exact runBound_replicate c th n 0 (by omega)
  | cons x xs ih =>
    intro n
    rw [collapseAux]
    by_cases hx : x = c
    · rw [if_pos hx]; exact ih (n + 1)
    · rw [if_neg hx]
      unfold emitRun
      split
      · rw [runBound_rep_append c th _ keep 0 (by omega), runBound, if_neg hx]
        exact ih 0
      · rename_i hn
        rw [runBound_rep_append c th _ n 0 (by omega), runBound, if_neg hx]
        exact ih 0

theorem collapse_id (c : Char) (th keep : Nat) :
    ∀ l n, n < th → runBound c th l n = true →
      collapseAux c th keep n l = List.replicate n c ++ l := by
  intro l
  induction l with
  | nil =>
    intro n hn _
    rw [collapseAux]
    unfold emitRun
    rw [if_neg (by omega)]
    simp
  | cons x xs ih =>
    intro n hn h
    rw [collapseAux]
    by_cases hx : x = c
    · rw [if_pos hx]
      rw [runBound, if_pos hx] at h
      simp only [Bool.and_eq_true, decide_eq_true_eq] at h
      rw [ih (n + 1) h.1 h.2]
      subst hx
      rw [List.replicate_succ']
      simp
    · rw [if_neg hx]
      rw [runBound, if_neg hx] at h
      unfold emitRun
      rw [if_neg (by omega), ih 0 (by omega) h]
      simp

theorem collapseRun_id (c : Char) (th keep : Nat) (l : List Char) (hth : 0 < th)
    (h : runBound c th l 0 = true) : collapseRun c th keep l = l := by
  unfold collapseRun
  rw [collapse_id c th keep l 0 hth h]
  simp

theorem collapseAux_head (c : Char) (th keep : Nat) (hkeep : 1 ≤ keep) :
    ∀ l n, 1 ≤ n → ∃ tail, collapseAux c th keep n l = c :: tail := by
  intro l
  induction l with
  | nil =>
    intro n hn
    rw [collapseAux]
    unfold emitRun
    split
    · have hk : keep = keep - 1 + 1 := by omega
      rw [hk, List.replicate_succ]
      exact ⟨_, rfl⟩
    · have hk : n = n - 1 + 1 := by omega
      rw [hk, List.replicate_succ]
      exact ⟨_, rfl⟩
  | cons x xs ih =>
    intro n hn
    rw [collapseAux]
    by_cases hx : x = c
    · rw [if_pos hx]; exact ih (n + 1) (by omega)
    · rw [if_neg hx]
      unfold emitRun
      split
      · have hk : keep = keep - 1 + 1 := by omega
        rw [hk, List.replicate_succ, List.cons_append]
        exact ⟨_, rfl⟩
      · have hk : n = n - 1 + 1 := by omega
        rw [hk, List.replicate_succ, List.cons_append]
        exact ⟨_, rfl⟩

theorem collapse_pres (c cp : Char) (m thp kp : Nat) (hne : ¬ cp = c) (hkp : 1 ≤ kp) :
    ∀ l n k, k < m → runBound c m l k = true →
      runBound c m (collapseAux cp thp kp n l) k = true := by
  intro l
  induction l with
  | nil =>
    intro n k _ _
    rw [collapseAux]
    exact runBound_all_ne c m _ k fun x hx => by
      rw [mem_emitRun x cp thp kp n hx]; exact hne
  | cons x xs ih =>
    intro n k hk h
    rw [collapseAux]
    by_cases hx : x = cp
    · rw [if_pos hx]
      rw [runBound, if_neg (by rw [hx]; exact hne)] at h
      have h0 : runBound c m (collapseAux cp thp kp (n + 1) xs) 0 = true :=
        ih (n + 1) 0 (by omega) h
      obtain ⟨tail, htail⟩ := collapseAux_head cp thp kp hkp xs (n + 1) (by omega)
      exact runBound_any_k c m _ h0 (by rw [htail]; simp [hne]) k
    · rw [if_neg hx]
      by_cases hxc : x = c
      · rw [runBound, if_pos hxc] at h
        simp only [Bool.and_eq_true, decide_eq_true_eq] at h
        have hrec := ih 0 (k + 1) h.1 h.2
        apply runBound_ne_append2 c m _ (emitRun cp thp kp n) k
          (fun y hy => by rw [mem_emitRun y cp thp kp n hy]; exact hne)
        · rw [runBound, if_pos hxc]
          simp only [Bool.and_eq_true, decide_eq_true_eq]
          exact ⟨h.1, hrec⟩
        · rw [runBound, if_pos hxc]
          simp only [Bool.and_eq_true, decide_eq_true_eq]
          exact ⟨by omega, runBound_mono c m _ (k + 1) 1 (by omega) hrec⟩
      · rw [runBound, if_neg hxc] at h
        have hrec := ih 0 0 (by omega) h
        apply runBound_ne_append2 c m _ (emitRun cp thp kp n) k
          (fun y hy => by rw [mem_emitRun y cp thp kp n hy]; exact hne)
        · rw [runBound, if_neg hxc]; exact hrec
        · rw [runBound, if_neg hxc]; exact hrec

theorem map_pres_runBound (c : Char) (m : Nat) (f : Char → Char) (hfc : f c = c)
    (hinj : ∀ a, f a = c → a = c) :
    ∀ l k, runBound c m l k = true → runBound c m (l.map f) k = true := by
  intro l
  induction l with
  | nil => intro k _; rfl
  | cons x xs ih =>
    intro k h
    rw [List.map_cons, runBound]
    rw [runBound] at h
    by_cases hx : x = c
    · rw [if_pos hx] at h
      rw [if_pos (by rw [hx, hfc])]
      simp only [Bool.and_eq_true, decide_eq_true_eq] at h ⊢
      exact ⟨h.1, ih (k + 1) h.2⟩
    · rw [if_neg hx] at h
      rw [if_neg fun he => hx (hinj x he)]
      exact ih 0 h

theorem dropWhile_pres_runBound (c : Char) (m : Nat) (p : Char → Bool) :
    ∀ l, runBound c m l 0 = true → runBound c m (l.dropWhile p) 0 = true := by
  intro l
  induction l with
  | nil => intro _; rfl
  | cons x xs ih =>
    intro h
    rw [List.dropWhile_cons]
    by_cases hp : p x = true
    · rw [if_pos hp]
      apply ih
      rw [runBound] at h
      by_cases hx : x = c
      · rw [if_pos hx] at h
        simp only [Bool.and_eq_true, decide_eq_true_eq] at h
        exact runBound_mono c m xs 1 0 (by omega) h.2
      · rw [if_neg hx] at h; exact h
    · rw [if_neg hp]; exact h

theorem trimRight_pres_runBound (c : Char) (m : Nat) :
    ∀ l k, runBound c m l k = true → runBound c m (trimRight l) k = true := by
  intro l
  induction l with
  | nil => intro k _; rfl
  | cons x xs ih =>
    intro k h
    have hstep : trimRight (x :: xs) =
        match trimRight xs with
        | [] => if rustIsWhitespace x then [] else [x]
        | z :: zs => x :: z :: zs := rfl
    rw [runBound] at h
    cases htr : trimRight xs with
    | nil =>
      rw [hstep, htr]
      by_cases hw : rustIsWhitespace x = true
      · rw [if_pos hw]; rfl
      · rw [if_neg hw, runBound]
        by_cases hx : x = c
        · rw [if_pos hx]
          rw [if_pos hx] at h
          simp only [Bool.and_eq_true, decide_eq_true_eq] at h ⊢
          exact ⟨h.1, rfl⟩
        · rw [if_neg hx]; rfl
    | cons z zs =>
      rw [hstep, htr, runBound]
      by_cases hx : x = c
      · rw [if_pos hx]
        rw [if_pos hx] at h
        simp only [Bool.and_eq_true, decide_eq_true_eq] at h ⊢
        refine ⟨h.1, ?_⟩
        have hih := ih (k + 1) h.2
        rw [htr] at hih
        exact hih
      · rw [if_neg hx]
        rw [if_neg hx] at h
        have hih := ih 0 h
        rw [htr] at hih
        exact hih

theorem pipe_not_mem_map (l : List Char) : '|' ∉ l.map substPipe := by
  intro h
  obtain ⟨a, _, ha⟩ := List.mem_map.mp h
  by_cases hp : a = '|'
  · rw [hp] at ha
    exact absurd ha (by decide)
  · unfold substPipe at ha
    rw [if_neg hp] at ha
    exact hp ha

theorem comma_not_mem_map (l : List Char) : '‚' ∉ l.map substComma := by
  intro h
  obtain ⟨a, _, ha⟩ := List.mem_map.mp h
  by_cases hp : a = '‚'
  · rw [hp] at ha
    exact absurd ha (by decide)
  · unfold substComma at ha
    rw [if_neg hp] at ha
    exact hp ha

theorem pipe_not_mem_map_comma (l : List Char) (h : '|' ∉ l) : '|' ∉ l.map substComma := by
  intro hmem
  obtain ⟨a, hal, ha⟩ := List.mem_map.mp hmem
  by_cases hc : a = '‚'
  · rw [hc] at ha
    unfold substComma at ha
    rw [if_pos rfl] at ha
    exact absurd ha (by decide)
  · unfold substComma at ha
    rw [if_neg hc] at ha
    rw [ha] at hal
    exact h hal

theorem map_id_of_forall (f : Char → Char) (l : List Char) (h : ∀ a ∈ l, f a = a) :
    l.map f = l := by
  rw [List.map_congr_left h]
  exact List.map_id' l

theorem dropWhile_shape (p : Char → Bool) :
    ∀ l : List Char, l.dropWhile p = [] ∨ ∃ y ys, l.dropWhile p = y :: ys ∧ p y = false := by
  intro l
  induction l with
  | nil => exact Or.inl rfl
  | cons x xs ih =>
    rw [List.dropWhile_cons]
    by_cases hp : p x = true
    · rw [if_pos hp]; exact ih
    · rw [if_neg hp]
      exact Or.inr ⟨x, xs, rfl, by simpa using hp⟩

theorem trimRight_shape (x : Char) (xs : List Char) :
    trimRight (x :: xs) = [] ∨ ∃ t2, trimRight (x :: xs) = x :: t2 := by
  have hstep : trimRight (x :: xs) =
      match trimRight xs with
      | [] => if rustIsWhitespace x then [] else [x]
      | z :: zs => x :: z :: zs := rfl
  cases htr : trimRight xs with
  | nil =>
    rw [hstep, htr]
    by_cases hw : rustIsWhitespace x = true
    · rw [if_pos hw]; exact Or.inl rfl
    · rw [if_neg hw]; exact Or.inr ⟨[], rfl⟩
  | cons z zs =>
    rw [hstep, htr]
    exact Or.inr ⟨z :: zs, rfl⟩

theorem dropWhile_trimList (l : List Char) :
    (trimList l).dropWhile rustIsWhitespace = trimList l := by
  unfold trimList
  rcases dropWhile_shape rustIsWhitespace l with hd | ⟨y, ys, hd, hy⟩
  · rw [hd]; rfl
  · rw [hd]
    rcases trimRight_shape y ys with ht | ⟨t2, ht⟩
    · rw [ht]; rfl
    · rw [ht, List.dropWhile_cons, if_neg (by simp [hy])]

theorem trimRight_idem : ∀ l : List Char, trimRight (trimRight l) = trimRight l := by
  intro l
  induction l with
  | nil => rfl
  | cons x xs ih =>
    have hstep : trimRight (x :: xs) =
        match trimRight xs with
        | [] => if rustIsWhitespace x then [] else [x]
        | z :: zs => x :: z :: zs := rfl
    cases htr : trimRight xs with
    | nil =>
      rw [hstep, htr]
      by_cases hw : rustIsWhitespace x = true
      · rw [if_pos hw]; rfl
      · rw [if_neg hw]
        have hone : trimRight [x] = if rustIsWhitespace x then [] else [x] := rfl
        rw [hone, if_neg hw]
    | cons z zs =>
      rw [hstep, htr]
      have h2 : trimRight (z :: zs) = z :: zs := by
        rw [← htr]
        exact ih
      have hstep2 : trimRight (x :: z :: zs) =
          match trimRight (z :: zs) with
          | [] => if rustIsWhitespace x then [] else [x]
          | w :: ws2 => x :: w :: ws2 := rfl
      rw [hstep2, h2]

theorem trimList_idem (l : List Char) : trimList (trimList l) = trimList l := by
  have h1 : (trimList l).dropWhile rustIsWhitespace = trimList l := dropWhile_trimList l
  show trimRight ((trimList l).dropWhile rustIsWhitespace) = trimList l
  rw [h1]
  show trimRight (trimRight (l.dropWhile rustIsWhitespace)) = trimList l
  rw [trimRight_idem]
  rfl

theorem noCombining_normalize (t : List Char) (h : ∀ c ∈ t, isCombining c = false) :
    ∀ c ∈ normalize_text t, isCombining c = false := by
  intro c hc
  have hnfc : nfc t = t := nfc_id t h
  unfold normalize_text at hc
  rw [hnfc] at hc
  have h1 := mem_trimList c _ hc
  obtain ⟨a, ha, hac⟩ := List.mem_map.mp h1
  obtain ⟨b, hb, hba⟩ := List.mem_map.mp ha
  have hb2 := mem_collapseAux b ' ' 2 1 _ 0 hb
  have hbcomb : isCombining b = false := by
    rcases hb2 with hsp | hb3
    · rw [hsp]; decide
    · rcases mem_collapseAux b '\n' 3 2 _ 0 hb3 with hnl | hbt
      · rw [hnl]; decide
      · exact h b hbt
  have hacomb : isCombining a = false := by
    unfold substPipe at hba
    by_cases hp : b = '|'
    · rw [if_pos hp] at hba; rw [← hba]; decide
    · rw [if_neg hp] at hba; rw [← hba]; exact hbcomb
  unfold substComma at hac
  by_cases hq : a = '‚'
  · rw [if_pos hq] at hac; rw [← hac]; decide
  · rw [if_neg hq] at hac; rw [← hac]; exact hacomb

theorem runBound_nl_normalize (t : List Char) :
    runBound '\n' 3 (normalize_text t) 0 = true := by
  unfold normalize_text trimList collapseRun
  apply trimRight_pres_runBound
  apply dropWhile_pres_runBound
  apply map_pres_runBound '\n' 3 substComma (by decide) (fun a => by
    unfold substComma
    split
    · intro hI; exact absurd hI (by decide)
    · exact id)
  apply map_pres_runBound '\n' 3 substPipe (by decide) (fun a => by
    unfold substPipe
    split
    · intro hI; exact absurd hI (by decide)
    · exact id)
  apply collapse_pres '\n' ' ' 3 2 1 (by decide) (by omega) _ 0 0 (by omega)
  exact collapse_noRun '\n' 3 2 (by omega) _ 0

theorem runBound_sp_normalize (t : List Char) :
    runBound ' ' 2 (normalize_text t) 0 = true := by
  unfold normalize_text trimList collapseRun
  apply trimRight_pres_runBound
  apply dropWhile_pres_runBound
  apply map_pres_runBound ' ' 2 substComma (by decide) (fun a => by
    unfold substComma
    split
    · intro hI; exact absurd hI (by decide)
    · exact id)
  apply map_pres_runBound ' ' 2 substPipe (by decide) (fun a => by
    unfold substPipe
    split
    · intro hI; exact absurd hI (by decide)
    · exact id)
  exact collapse_noRun ' ' 2 1 (by omega) _ 0

theorem pipe_not_mem_normalize (t : List Char) : '|' ∉ normalize_text t := by
  unfold normalize_text
  intro h
  exact pipe_not_mem_map_comma _ (pipe_not_mem_map _) (mem_trimList _ _ h)

theorem comma_not_mem_normalize (t : List Char) : '‚' ∉ normalize_text t := by
  unfold normalize_text
  intro h
  exact comma_not_mem_map _ (mem_trimList _ _ h)

theorem trimList_normalize (t : List Char) :
    trimList (normalize_text t) = normalize_text t := by
  unfold normalize_text
  exact trimList_idem _

/-- Model-internal idempotence: on texts avoiding the model's combining
mark, every stage of the second pass is the identity on the output of the
first. The claim-facing theorem below strengthens the hypothesis to
all-ASCII input, the domain on which the `nfc` model is faithful to full
NFC. -/
theorem normalize_idem_of_noCombining (t : List Char)
    (h : ∀ c ∈ t, isCombining c = false) :
    normalize_text (normalize_text t) = normalize_text t := by
  have hcomb := noCombining_normalize t h
  have hnl := runBound_nl_normalize t
  have hsp := runBound_sp_normalize t
  have hpipe := pipe_not_mem_normalize t
  have hcomma := comma_not_mem_normalize t
  conv_lhs => rw [normalize_text]
  rw [nfc_id _ hcomb]
  rw [collapseRun_id '\n' 3 2 _ (by omega) hnl]
  rw [collapseRun_id ' ' 2 1 _ (by omega) hsp]
  rw [map_id_of_forall substPipe _ fun a ha => by
    unfold substPipe
    rw [if_neg (fun he : a = '|' => hpipe (he ▸ ha))]]
  rw [map_id_of_forall substComma _ fun a ha => by
    unfold substComma
    rw [if_neg (fun he : a = '‚' => hcomma (he ▸ ha))]]
  exact trimList_normalize t

/-! ## Claim C7 (normalizer idempotence) -/

/-- C7, counterexample: on the text `a`, `|`, U+0300 the normalizer is not
idempotent: the first pass yields `a`, `I`, U+0300 (NFC runs before the
`'|'` → `'I'` substitution), and the second pass NFC-composes `I` + U+0300
into `Ì`. -/
theorem claim_C7_counterexample :
    ¬ (normalize_text (normalize_text pipeGraveText) = normalize_text pipeGraveText) := by
  decide

/-- C7, amended: `normalize_text` is idempotent on every text of ASCII
characters; on such texts the second application is the identity. (ASCII
text has no combining marks and full NFC is the identity on it, so this is
the domain where the embedded normalizer provably coincides with the
program; outside it the program itself is not idempotent — see the
counterexample, and its analogues for other combining marks such as
U+0301.) -/
theorem claim_C7 (t : List Char) (h : ∀ c ∈ t, c.toNat < 128) :
    normalize_text (normalize_text t) = normalize_text t :=
  normalize_idem_of_noCombining t fun c hc => by
    have hlt := h c hc
    by_cases hg : c = graveChar
    · rw [hg] at hlt
      exact absurd hlt (by decide)
    · simp [isCombining, hg]

/-- C7, witness for the amended claim at the spec's own normalization
scenario input (an ASCII text). -/
theorem claim_C7_witness :
    (∀ c ∈ "Hello   world\n\n\n\nTest".data, c.toNat < 128) ∧
    normalize_text (normalize_text "Hello   world\n\n\n\nTest".data) =
      normalize_text "Hello   world\n\n\n\nTest".data :=
  ⟨by decide, claim_C7 _ (by decide)⟩

end Engagic
